import Mathlib

/-!
Verification development for the character-presets tool.

The repository ships the CLI (`preset_tool.py`), the GUI (`preset_gui.py`) and a
build script; the preset engine itself (`character_presets.py`: `FacePreset`,
`CSMenuSystemSaveLoad` and the copy/export/import operations) is consumed as
a library and is not part of the snapshot.  The engine definitions below are
therefore modelled from the specification (sections 3, 4 and 6 of `spec.md`);
the calling-layer flows (`do_copy`, `do_import`, `copy_preset`) are embedded
from the Python source that is present.
-/

namespace CharacterPresets

/-- Modelled from the spec: the semantic type of one field of a preset record
(`kind ∈ {u8, i8, u16, i16, rgb8}`, spec section 3).  The concrete
`character_presets.py` module is not in the repository snapshot. -/
inductive FieldKind
  | u8
  | i8
  | u16
  | i16
  | rgb8
deriving DecidableEq, Repr

/-- Modelled from the spec: byte width occupied by a field of the given kind. -/
def FieldKind.byteWidth : FieldKind → Nat
  | .u8 => 1
  | .i8 => 1
  | .u16 => 2
  | .i16 => 2
  | .rgb8 => 3

/-- Modelled from the spec: a field descriptor `{name, offset, kind}`
(spec section 3; the width is determined by the kind). -/
structure FieldDescriptor where
  name : String
  offset : Nat
  kind : FieldKind
deriving DecidableEq, Repr

/-- A record buffer: a sequence of bytes (each `< 256` once read back). -/
abbrev Buffer := List Nat

/-- Read one byte of a buffer; positions outside the buffer read as 0 and
stored values are reduced mod 256. -/
def readByte (buf : Buffer) (i : Nat) : Nat := buf.getD i 0 % 256

/-- Two's-complement reading of one byte. -/
def toSigned8 (b : Nat) : Int := if b < 128 then (b : Int) else (b : Int) - 256

/-- Two's-complement reading of a 16-bit little-endian word. -/
def toSigned16 (w : Nat) : Int :=
  if w < 32768 then (w : Int) else (w : Int) - 65536

/-- Modelled from the spec: a decoded field value — an integer for the scalar
kinds, a triplet for `rgb8`. -/
inductive FieldValue
  | int (v : Int)
  | rgb (r g b : Nat)
deriving DecidableEq, Repr

/-- Modelled from the spec: decode a single field out of a record buffer
(16-bit kinds are little-endian). -/
def decodeField (buf : Buffer) (d : FieldDescriptor) : FieldValue :=
  match d.kind with
  | .u8 => .int (readByte buf d.offset)
  | .i8 => .int (toSigned8 (readByte buf d.offset))
  | .u16 => .int ((readByte buf d.offset : Int) + 256 * (readByte buf (d.offset + 1) : Int))
  | .i16 => .int (toSigned16 (readByte buf d.offset + 256 * readByte buf (d.offset + 1)))
  | .rgb8 => .rgb (readByte buf d.offset) (readByte buf (d.offset + 1)) (readByte buf (d.offset + 2))

/-- A field-value map, `field name → value` (spec sections 3 and 4.1). -/
abbrev ValueMap := List (String × FieldValue)

/-- First-occurrence lookup in a value map (dictionary semantics). -/
def lookupField : ValueMap → String → Option FieldValue
  | [], _ => none
  | (n, v) :: rest, k => if n = k then some v else lookupField rest k

/-- Modelled from the spec: `decode(buffer) -> field_value_map`
(spec section 4.1), produced in the schema's canonical field order. -/
def decode (s : List FieldDescriptor) (buf : Buffer) : ValueMap :=
  s.map fun d => (d.name, decodeField buf d)

/-- Whether a value is of the right shape for a kind and within the field's
declared bit width (spec section 4.1's round-trip precondition). -/
def fitsWidth : FieldKind → FieldValue → Bool
  | .u8, .int v => 0 ≤ v && v < 256
  | .i8, .int v => -128 ≤ v && v < 128
  | .u16, .int v => 0 ≤ v && v < 65536
  | .i16, .int v => -32768 ≤ v && v < 32768
  | .rgb8, .rgb r g b => r < 256 && g < 256 && b < 256
  | _, _ => false

/-- Modelled from the spec: the byte serialization of one field value;
`none` when the value's shape does not match the kind (a malformed map). -/
def fieldBytes : FieldKind → FieldValue → Option (List Nat)
  | .u8, .int v => some [(v % 256).toNat]
  | .i8, .int v => some [(v % 256).toNat]
  | .u16, .int v => some [(v % 65536).toNat % 256, (v % 65536).toNat / 256]
  | .i16, .int v => some [(v % 65536).toNat % 256, (v % 65536).toNat / 256]
  | .rgb8, .rgb r g b => some [r % 256, g % 256, b % 256]
  | _, _ => none

/-- Write a run of bytes into a buffer starting at the given offset. -/
def writeBytes (buf : Buffer) (off : Nat) : List Nat → Buffer
  | [] => buf
  | b :: bs => writeBytes (buf.set off b) (off + 1) bs

/-- Modelled from the spec: the record's fixed byte length — the least length
covering every declared field (spec section 3's spanning invariant). -/
def recordWidth (s : List FieldDescriptor) : Nat :=
  s.foldr (fun d acc => max (d.offset + d.kind.byteWidth) acc) 0

/-- Modelled from the spec: the error taxonomy of section 7. -/
inductive EngineError
  | SlotRangeError
  | EmptySourceError
  | EntryRangeError
  | DestRangeError
  | UnknownFieldError
  | ValueRangeError
  | SchemaError
deriving DecidableEq, Repr

/-- Modelled from the spec: encode every declared field of the schema into the
accumulator buffer; a declared field missing from the map (or of the wrong
shape) is `SchemaError`, a value exceeding the field's bit width is
`ValueRangeError` (spec sections 4.1 and 7). -/
def encodeFields (s : List FieldDescriptor) (m : ValueMap) (buf : Buffer) :
    Except EngineError Buffer :=
  match s with
  | [] => .ok buf
  | d :: ds =>
    match lookupField m d.name with
    | none => .error .SchemaError
    | some v =>
      match fieldBytes d.kind v with
      | none => .error .SchemaError
      | some bs =>
        if fitsWidth d.kind v then encodeFields ds m (writeBytes buf d.offset bs)
        else .error .ValueRangeError

/-- Modelled from the spec: `encode(field_value_map) -> buffer`, the
from-scratch encode of section 4.1, producing a buffer of exactly the record
width. -/
def encode (s : List FieldDescriptor) (m : ValueMap) : Except EngineError Buffer :=
  encodeFields s m (List.replicate (recordWidth s) 0)

/-- Two fields occupy disjoint byte regions (spec section 3's non-overlap
invariant). -/
def disjointFields (d e : FieldDescriptor) : Prop :=
  d.offset + d.kind.byteWidth ≤ e.offset ∨ e.offset + e.kind.byteWidth ≤ d.offset

instance : DecidablePred fun p : FieldDescriptor × FieldDescriptor => disjointFields p.1 p.2 :=
  fun _ => by unfold disjointFields; infer_instance

instance (d e : FieldDescriptor) : Decidable (disjointFields d e) := by
  unfold disjointFields; infer_instance

/-- Modelled from the spec: schema well-formedness — field regions are
pairwise non-overlapping and names are distinct (spec section 3). -/
def schemaWF (s : List FieldDescriptor) : Prop :=
  s.Pairwise disjointFields ∧ (s.map FieldDescriptor.name).Nodup

instance (s : List FieldDescriptor) : Decidable (schemaWF s) := by
  unfold schemaWF; infer_instance

/-- Modelled from the spec: the zero/sentinel value of a field in the
canonical "unused slot" pattern (spec section 3). -/
def FieldKind.zeroValue : FieldKind → FieldValue
  | .rgb8 => .rgb 0 0 0
  | _ => .int 0

/-- Modelled from the spec: `is_empty()` — true iff every declared field of the
record equals its zero/sentinel value (spec sections 3 and 4.2; the concrete
`FacePreset.is_empty` of `character_presets.py` is not in the snapshot). -/
def isEmpty (s : List FieldDescriptor) (r : Buffer) : Bool :=
  s.all fun d => decodeField r d == d.kind.zeroValue

/-- The two body archetypes (spec section 4.2). -/
inductive BodyType
  | A
  | B
deriving DecidableEq, Repr

/-- The designated discriminator field's decoded value. -/
def discriminatorValue (s : List FieldDescriptor) (r : Buffer) : Option FieldValue :=
  lookupField (decode s r) "body_type"

/-- Modelled from the spec: `body_type()` — `B` exactly when the designated
discriminator field holds 1, every other value treated as `A`
(spec section 4.2; `FacePreset.get_body_type` is not in the snapshot). -/
def getBodyType (s : List FieldDescriptor) (r : Buffer) : BodyType :=
  match discriminatorValue s r with
  | some (.int v) => if v = 1 then .B else .A
  | _ => .A

/-- Modelled from the spec: a preset table — exactly 15 slots, each holding one
record; an empty slot is a record satisfying `is_empty`, never a missing one
(spec section 3). -/
structure PresetTable where
  slots : List Buffer
  hlen : slots.length = 15

/-- Modelled from the spec: the recursion behind `active_slots()`, carrying the
index of the head slot. -/
def activeSlotsFrom (s : List FieldDescriptor) (i : Nat) : List Buffer → List (Nat × Buffer)
  | [] => []
  | r :: rest =>
    (if isEmpty s r then [] else [(i, r)]) ++ activeSlotsFrom s (i + 1) rest

/-- Modelled from the spec: `active_slots()` — the `(index, record)` pairs of
all non-empty slots in ascending index order (spec section 4.3;
`CSMenuSystemSaveLoad.get_active_presets` is not in the snapshot). -/
def activeSlots (s : List FieldDescriptor) (t : PresetTable) : List (Nat × Buffer) :=
  activeSlotsFrom s 0 t.slots

/-- Modelled from the spec: `slot(index)` — fails `SlotRangeError` when the
0-based index is outside `[0, 15)` (spec section 4.3). -/
def PresetTable.slot (t : PresetTable) (i : Int) : Except EngineError Buffer :=
  if 0 ≤ i ∧ i < 15 then .ok (t.slots.getD i.toNat []) else .error .SlotRangeError

/-- Modelled from the spec: `replace_slot(index, record)` — overwrites one slot
in place, with the section 8 boundary contract that an out-of-range index is a
`SlotRangeError` and mutates nothing.  Returns the outcome together with the
post-state of the table. -/
def PresetTable.replaceSlot (t : PresetTable) (i : Int) (r : Buffer) :
    Except EngineError Unit × PresetTable :=
  if h : 0 ≤ i ∧ i < 15 then
    (.ok (), ⟨t.slots.set i.toNat r, by rw [List.length_set]; exact t.hlen⟩)
  else (.error .SlotRangeError, t)

/-- Modelled from the spec: the transplant engine's
`copy(source_table, source_index, dest_table, dest_index)` (spec section 4.4):
validate both indices, reject an empty source with `EmptySourceError`, else
clone the source record into the destination slot.  Returns the outcome
together with the post-state of the destination table. -/
def copyPreset (s : List FieldDescriptor) (src : PresetTable) (si : Int)
    (dst : PresetTable) (di : Int) : Except EngineError Unit × PresetTable :=
  if ¬(0 ≤ si ∧ si < 15) then (.error .SlotRangeError, dst)
  else if ¬(0 ≤ di ∧ di < 15) then (.error .SlotRangeError, dst)
  else if isEmpty s (src.slots.getD si.toNat []) then (.error .EmptySourceError, dst)
  else dst.replaceSlot di (src.slots.getD si.toNat [])

/-- Modelled from the spec: one entry of the interchange document,
`{original_slot, data}` (spec sections 3 and 6). -/
structure DocEntry where
  originalSlot : Int
  data : ValueMap
deriving DecidableEq, Repr

instance : Inhabited DocEntry := ⟨⟨0, []⟩⟩

/-- The interchange document: an ordered sequence of entries. -/
abbrev Document := List DocEntry

/-- Modelled from the spec: `export(table)` — maps `active_slots()` into
document entries in ascending slot order, preserving `original_slot` as the
exported slot's index (spec section 4.4). -/
def exportPresets (s : List FieldDescriptor) (t : PresetTable) : Document :=
  (activeSlots s t).map fun p => ⟨(p.1 : Int), decode s p.2⟩

/-- Modelled from the spec: `import(document, entry_index, dest_table,
dest_index)` (spec sections 4.4 and 6): `EntryRangeError` for an out-of-bounds
entry index, `DestRangeError` for a destination index outside `[0, 15)`,
`UnknownFieldError` when `data` carries a name the schema does not declare,
then encode through the Field Schema and write into the destination slot.
Returns the outcome together with the post-state of the destination table. -/
def importPreset (s : List FieldDescriptor) (doc : Document) (ei : Int)
    (dst : PresetTable) (di : Int) : Except EngineError Unit × PresetTable :=
  if ¬(0 ≤ ei ∧ ei < (doc.length : Int)) then (.error .EntryRangeError, dst)
  else if ¬(0 ≤ di ∧ di < 15) then (.error .DestRangeError, dst)
  else
    if ¬((doc.getD ei.toNat default).data.all fun p => s.any fun d => d.name = p.1) then
      (.error .UnknownFieldError, dst)
    else
      match encode s (doc.getD ei.toNat default).data with
      | .error err => (.error err, dst)
      | .ok buf => dst.replaceSlot di buf

/-! ## The calling layer (embedded from the Python source in the snapshot)

`preset_gui.py`'s `do_copy` (lines 799-849) and `do_import` (lines 683-730)
and `preset_tool.py`'s `copy_preset` (lines 87-134) sequence the mutation, the
backup-file creation and the persist.  Each flow is embedded as the trace of
externally visible steps it performs, parameterised by the success flag the
engine mutation reports. -/

/-- One externally visible step of a calling-layer flow. -/
inductive Step
  | load (path : String)
  | mutate (ok : Bool)
  | backupFile (src dst : String)
  | persistSave (path : String)
  | dialog
deriving DecidableEq, Repr

/-- Whether a step writes to disk. -/
def isWriteStep : Step → Bool
  | .backupFile _ _ => true
  | .persistSave _ => true
  | _ => false

/-- The disk paths a step writes (`shutil.copy2(src, dst)` writes `dst`;
`save.save(path)` writes `path`). -/
def stepWrites : Step → List String
  | .backupFile _ dst => [dst]
  | .persistSave p => [p]
  | _ => []

/-- All paths written along a trace. -/
def writtenPaths (tr : List Step) : List String :=
  tr.foldr (fun st acc => stepWrites st ++ acc) []

/-- The `do_copy` handler of `preset_gui.py` (lines 799-849): load the
destination save, run `copy_preset_to_save`, and only on success copy the
destination file to `dest + ".backup"`, then persist the destination save; on
failure only an error dialog is shown. -/
def doCopyTrace (ok : Bool) (destPath : String) : List Step :=
  [.load destPath, .mutate ok] ++
    (if ok then
      [.backupFile destPath (destPath ++ ".backup"), .persistSave destPath, .dialog]
    else [.dialog])

/-- The `do_import` handler of `preset_gui.py` (lines 683-730): run
`import_preset_from_json`, and only on success copy the current save file to
`path + ".backup"`, persist it, then reload it; on failure only an error
dialog is shown. -/
def doImportTrace (ok : Bool) (savePath : String) : List Step :=
  [.mutate ok] ++
    (if ok then
      [.backupFile savePath (savePath ++ ".backup"), .persistSave savePath,
        .load savePath, .dialog]
    else [.dialog])

/-- The `copy_preset` command of `preset_tool.py` (lines 87-134): load the
source save, load the destination save, run `copy_preset_to_save`, and only on
success copy the destination file to `dest + ".backup"` then persist the
destination save. -/
def copyCliTrace (ok : Bool) (srcPath destPath : String) : List Step :=
  [.load srcPath, .load destPath, .mutate ok] ++
    (if ok then [.backupFile destPath (destPath ++ ".backup"), .persistSave destPath]
    else [])

/-- A trace performs disk writes only after the mutation has reported
success: every write step is preceded by a `mutate true` step. -/
def writesAfterSuccess (tr : List Step) : Prop :=
  ∀ k, ∀ hk : k < tr.length, isWriteStep (tr.get ⟨k, hk⟩) = true →
    ∃ m, m < k ∧ ∃ hm : m < tr.length, tr.get ⟨m, hm⟩ = .mutate true

/-! ## A concrete representative schema

The real ~150-field layout lives in `character_presets.py`, outside the
snapshot; the spec's scenario (section 8) names `face_model`, `hair_model`,
`skin_color` and the `body_type` discriminator.  The schema below is a
representative well-formed layout used for concrete witnesses; no theorem
depends on the particular offsets. -/

/-- Modelled from the spec: a concrete well-formed field layout covering every
field kind, used for witnesses. -/
def presetSchema : List FieldDescriptor :=
  [⟨"body_type", 0, .u8⟩,
   ⟨"face_model", 1, .u8⟩,
   ⟨"hair_model", 2, .u8⟩,
   ⟨"apparent_age", 3, .u8⟩,
   ⟨"skin_color", 4, .rgb8⟩,
   ⟨"hair_color", 7, .rgb8⟩,
   ⟨"brow_ridge_height", 10, .i8⟩,
   ⟨"nose_size", 11, .i16⟩,
   ⟨"sculpt_detail", 13, .u16⟩]

/-- The all-zero (empty-slot) record for the representative schema. -/
def emptyRecord : Buffer := List.replicate 15 0

/-- A populated record matching the spec's section 8 scenario:
`face_model = 12`, `hair_model = 5`, `skin_color = (200, 150, 120)`. -/
def sampleRecord : Buffer := [0, 12, 5, 30, 200, 150, 120, 90, 80, 70, 250, 16, 255, 44, 1]

/-- A second populated record with different field values. -/
def sampleRecord2 : Buffer := [1, 7, 9, 60, 10, 20, 30, 40, 50, 60, 3, 200, 0, 99, 0]

/-- A table that is empty everywhere. -/
def emptyTable : PresetTable := ⟨List.replicate 15 emptyRecord, by decide⟩

/-- A table populated exactly at slots 2 and 7. -/
def tablePop27 : PresetTable :=
  ⟨[emptyRecord, emptyRecord, sampleRecord, emptyRecord, emptyRecord,
    emptyRecord, emptyRecord, sampleRecord2, emptyRecord, emptyRecord,
    emptyRecord, emptyRecord, emptyRecord, emptyRecord, emptyRecord], by decide⟩

/-! ## Helper lemmas about buffers and byte writes -/

theorem getD_set_ne {α : Type} (l : List α) (i j : Nat) (v d : α) (h : i ≠ j) :
    (l.set i v).getD j d = l.getD j d := by
  simp [List.getD_eq_getElem?_getD, List.getElem?_set_ne h]

theorem getD_set_self {α : Type} (l : List α) (i : Nat) (v d : α) (h : i < l.length) :
    (l.set i v).getD i d = v := by
  simp [List.getD_eq_getElem?_getD, List.getElem?_set_eq_of_lt v h]

theorem set_getD_self {α : Type} (l : List α) (i : Nat) (d : α) (h : i < l.length) :
    l.set i (l.getD i d) = l := by
  rw [List.getD_eq_getElem l d h]
  apply List.ext_getElem
  · simp
  · intro n h1 h2
    rcases eq_or_ne i n with rfl | hne
    · simp
    · rw [List.getElem_set_ne hne]

theorem writeBytes_length (buf : Buffer) (off : Nat) (bs : List Nat) :
    (writeBytes buf off bs).length = buf.length := by
  induction bs generalizing buf off with
  | nil => rfl
  | cons b rest ih => rw [writeBytes, ih, List.length_set]

theorem getD_writeBytes_lt (buf : Buffer) (off : Nat) (bs : List Nat) (p : Nat)
    (h : p < off) : (writeBytes buf off bs).getD p 0 = buf.getD p 0 := by
  induction bs generalizing buf off with
  | nil => rfl
  | cons b rest ih =>
    rw [writeBytes, ih _ _ (by omega), getD_set_ne _ _ _ _ _ (by omega)]

theorem getD_writeBytes_ge (buf : Buffer) (off : Nat) (bs : List Nat) (p : Nat)
    (h : off + bs.length ≤ p) : (writeBytes buf off bs).getD p 0 = buf.getD p 0 := by
  induction bs generalizing buf off with
  | nil => rfl
  | cons b rest ih =>
    rw [List.length_cons] at h
    rw [writeBytes, ih _ _ (by omega), getD_set_ne _ _ _ _ _ (by omega)]

theorem getD_writeBytes_at (buf : Buffer) (off : Nat) (bs : List Nat) (k : Nat)
    (hk : k < bs.length) (hb : off + bs.length ≤ buf.length) :
    (writeBytes buf off bs).getD (off + k) 0 = bs.getD k 0 := by
  induction bs generalizing buf off k with
  | nil => simp at hk
  | cons b rest ih =>
    rw [List.length_cons] at hb
    cases k with
    | zero =>
      rw [writeBytes, getD_writeBytes_lt _ _ _ _ (by omega)]
      rw [Nat.add_zero, getD_set_self _ _ _ _ (by omega)]
      rfl
    | succ k' =>
      rw [writeBytes, show off + (k' + 1) = (off + 1) + k' by omega,
        ih _ _ _ (by simpa using hk) (by rw [List.length_set]; omega)]
      rfl

theorem readByte_writeBytes_at (buf : Buffer) (off : Nat) (bs : List Nat) (k : Nat)
    (hk : k < bs.length) (hb : off + bs.length ≤ buf.length) :
    readByte (writeBytes buf off bs) (off + k) = bs.getD k 0 % 256 := by
  rw [readByte, getD_writeBytes_at _ _ _ _ hk hb]

theorem fieldBytes_length (k : FieldKind) (v : FieldValue) (bs : List Nat)
    (h : fieldBytes k v = some bs) : bs.length = k.byteWidth := by
  cases k <;> cases v <;> simp_all [fieldBytes, FieldKind.byteWidth] <;>
    (subst h; rfl)

theorem fieldBytes_of_fits (k : FieldKind) (v : FieldValue)
    (h : fitsWidth k v = true) : ∃ bs, fieldBytes k v = some bs := by
  cases k <;> cases v <;> simp_all [fitsWidth, fieldBytes]

theorem decodeField_congr (b1 b2 : Buffer) (d : FieldDescriptor)
    (h : ∀ p, d.offset ≤ p → p < d.offset + d.kind.byteWidth →
      readByte b1 p = readByte b2 p) :
    decodeField b1 d = decodeField b2 d := by
  obtain ⟨nm, off, k⟩ := d
  simp only at h ⊢
  cases k
  case u8 =>
    have h0 := h off (by omega) (by show off < off + 1; omega)
    simp only [decodeField, h0]
  case i8 =>
    have h0 := h off (by omega) (by show off < off + 1; omega)
    simp only [decodeField, h0]
  case u16 =>
    have h0 := h off (by omega) (by show off < off + 2; omega)
    have h1 := h (off + 1) (by omega) (by show off + 1 < off + 2; omega)
    simp only [decodeField, h0, h1]
  case i16 =>
    have h0 := h off (by omega) (by show off < off + 2; omega)
    have h1 := h (off + 1) (by omega) (by show off + 1 < off + 2; omega)
    simp only [decodeField, h0, h1]
  case rgb8 =>
    have h0 := h off (by omega) (by show off < off + 3; omega)
    have h1 := h (off + 1) (by omega) (by show off + 1 < off + 3; omega)
    have h2 := h (off + 2) (by omega) (by show off + 2 < off + 3; omega)
    simp only [decodeField, h0, h1, h2]

theorem decodeField_writeBytes_self (buf : Buffer) (d : FieldDescriptor)
    (v : FieldValue) (bs : List Nat)
    (hf : fieldBytes d.kind v = some bs) (hfit : fitsWidth d.kind v = true)
    (hb : d.offset + d.kind.byteWidth ≤ buf.length) :
    decodeField (writeBytes buf d.offset bs) d = v := by
  obtain ⟨nm, off, k⟩ := d
  simp only at hf hfit hb ⊢
  have hlen := fieldBytes_length k v bs hf
  have hread : ∀ p, p < bs.length →
      readByte (writeBytes buf off bs) (off + p) = bs.getD p 0 % 256 :=
    fun p hp => readByte_writeBytes_at buf off bs p hp (by omega)
  cases k <;> cases v <;> simp only [fieldBytes, Option.some.injEq] at hf <;>
    try exact absurd hf (by simp)
  case u8.int w =>
    subst hf
    simp only [fitsWidth, Bool.and_eq_true, decide_eq_true_eq] at hfit
    have h0 := hread 0 (by simp)
    rw [Nat.add_zero] at h0
    simp only [List.getD_cons_zero] at h0
    simp only [decodeField, h0]
    congr 1
    omega
  case i8.int w =>
    subst hf
    simp only [fitsWidth, Bool.and_eq_true, decide_eq_true_eq] at hfit
    have h0 := hread 0 (by simp)
    rw [Nat.add_zero] at h0
    simp only [List.getD_cons_zero] at h0
    simp only [decodeField, h0, toSigned8]
    split <;> congr 1 <;> omega
  case u16.int w =>
    subst hf
    simp only [fitsWidth, Bool.and_eq_true, decide_eq_true_eq] at hfit
    have h0 := hread 0 (by simp)
    rw [Nat.add_zero] at h0
    have h1 := hread 1 (by simp)
    simp only [List.getD_cons_zero, List.getD_cons_succ] at h0 h1
    simp only [decodeField, h0, h1]
    congr 1
    omega
  case i16.int w =>
    subst hf
    simp only [fitsWidth, Bool.and_eq_true, decide_eq_true_eq] at hfit
    have h0 := hread 0 (by simp)
    rw [Nat.add_zero] at h0
    have h1 := hread 1 (by simp)
    simp only [List.getD_cons_zero, List.getD_cons_succ] at h0 h1
    simp only [decodeField, h0, h1, toSigned16]
    split <;> congr 1 <;> omega
  case rgb8.rgb rr gg bb =>
    subst hf
    simp only [fitsWidth, Bool.and_eq_true, decide_eq_true_eq] at hfit
    have h0 := hread 0 (by simp)
    rw [Nat.add_zero] at h0
    have h1 := hread 1 (by simp)
    have h2 := hread 2 (by simp)
    simp only [List.getD_cons_zero, List.getD_cons_succ] at h0 h1 h2
    simp only [decodeField, h0, h1, h2]
    congr 1 <;> omega

theorem encodeFields_frame (s : List FieldDescriptor) (m : ValueMap)
    (buf out : Buffer) (henc : encodeFields s m buf = .ok out) (off n : Nat)
    (hdisj : ∀ e ∈ s, e.offset + e.kind.byteWidth ≤ off ∨ off + n ≤ e.offset) :
    ∀ p, off ≤ p → p < off + n → out.getD p 0 = buf.getD p 0 := by
  induction s generalizing buf with
  | nil =>
    simp only [encodeFields, Except.ok.injEq] at henc
    subst henc
    intro p _ _
    rfl
  | cons d ds ih =>
    rw [encodeFields] at henc
    split at henc
    · exact absurd henc (by simp)
    case h_2 v hv =>
      split at henc
      · exact absurd henc (by simp)
      case h_2 bs hbs =>
        split at henc
        case isTrue hfit =>
          intro p hp1 hp2
          rw [ih _ henc (fun e he => hdisj e (List.mem_cons_of_mem d he)) p hp1 hp2]
          have hlen := fieldBytes_length d.kind v bs hbs
          rcases hdisj d (List.mem_cons_self d ds) with hle | hge
          · exact getD_writeBytes_ge buf d.offset bs p (by omega)
          · exact getD_writeBytes_lt buf d.offset bs p (by omega)
        case isFalse => exact absurd henc (by simp)

theorem encodeFields_length (s : List FieldDescriptor) (m : ValueMap)
    (buf out : Buffer) (henc : encodeFields s m buf = .ok out) :
    out.length = buf.length := by
  induction s generalizing buf with
  | nil =>
    simp only [encodeFields, Except.ok.injEq] at henc
    subst henc
    rfl
  | cons d ds ih =>
    rw [encodeFields] at henc
    split at henc
    · exact absurd henc (by simp)
    · split at henc
      · exact absurd henc (by simp)
      · split at henc
        · rw [ih _ henc, writeBytes_length]
        · exact absurd henc (by simp)

theorem encodeFields_decodeField (s : List FieldDescriptor) (m : ValueMap)
    (buf out : Buffer) (henc : encodeFields s m buf = .ok out)
    (hpw : s.Pairwise disjointFields)
    (hbound : ∀ e ∈ s, e.offset + e.kind.byteWidth ≤ buf.length)
    (d : FieldDescriptor) (hd : d ∈ s) (v : FieldValue)
    (hv : lookupField m d.name = some v) :
    decodeField out d = v := by
  induction s generalizing buf with
  | nil => cases hd
  | cons e es ih =>
    rw [encodeFields] at henc
    split at henc
    · exact absurd henc (by simp)
    case h_2 v0 hv0 =>
      split at henc
      · exact absurd henc (by simp)
      case h_2 bs hbs =>
        split at henc
        case isTrue hfit =>
          rcases List.mem_cons.mp hd with rfl | hmem
          · have hvv : v0 = v := by rw [hv0] at hv; exact (Option.some.injEq _ _).mp hv
            subst hvv
            have hframe := encodeFields_frame es m _ out henc d.offset d.kind.byteWidth
              (fun e he => by
                have := (List.pairwise_cons.mp hpw).1 e he
                unfold disjointFields at this
                tauto)
            have hcongr : decodeField out d = decodeField (writeBytes buf d.offset bs) d := by
              apply decodeField_congr
              intro p hp1 hp2
              rw [readByte, readByte, hframe p hp1 hp2]
            rw [hcongr]
            exact decodeField_writeBytes_self buf d v0 bs hbs hfit
              (hbound d (List.mem_cons_self d es))
          · exact ih _ henc (List.pairwise_cons.mp hpw).2
              (fun f hf => by
                rw [writeBytes_length]
                exact hbound f (List.mem_cons_of_mem _ hf)) hmem
        case isFalse => exact absurd henc (by simp)

theorem encodeFields_ok (s : List FieldDescriptor) (m : ValueMap) (buf : Buffer)
    (h : ∀ d ∈ s, ∃ v, lookupField m d.name = some v ∧ fitsWidth d.kind v = true) :
    ∃ out, encodeFields s m buf = .ok out := by
  induction s generalizing buf with
  | nil => exact ⟨buf, rfl⟩
  | cons d ds ih =>
    obtain ⟨v, hv, hfit⟩ := h d (List.mem_cons_self d ds)
    obtain ⟨bs, hbs⟩ := fieldBytes_of_fits d.kind v hfit
    rw [encodeFields]
    simp only [hv, hbs, hfit, if_true]
    exact ih _ (fun e he => h e (List.mem_cons_of_mem d he))

theorem recordWidth_le (s : List FieldDescriptor) (d : FieldDescriptor)
    (hd : d ∈ s) : d.offset + d.kind.byteWidth ≤ recordWidth s := by
  induction s with
  | nil => cases hd
  | cons e es ih =>
    rcases List.mem_cons.mp hd with rfl | hmem
    · rw [recordWidth, List.foldr_cons]
      exact Nat.le_max_left _ _
    · rw [recordWidth, List.foldr_cons]
      exact Nat.le_trans (ih hmem) (Nat.le_max_right _ _)

theorem lookupField_decode (s : List FieldDescriptor)
    (hnd : (s.map FieldDescriptor.name).Nodup) (buf : Buffer)
    (d : FieldDescriptor) (hd : d ∈ s) :
    lookupField (decode s buf) d.name = some (decodeField buf d) := by
  induction s with
  | nil => cases hd
  | cons e es ih =>
    rw [List.map_cons, List.nodup_cons] at hnd
    rcases List.mem_cons.mp hd with rfl | hmem
    · simp [decode, lookupField]
    · have hne : e.name ≠ d.name := by
        intro hcontra
        exact hnd.1 (hcontra ▸ List.mem_map_of_mem FieldDescriptor.name hmem)
      simp only [decode, List.map_cons, lookupField, if_neg hne]
      exact ih hnd.2 hmem

theorem lookupField_decode_none (s : List FieldDescriptor) (buf : Buffer)
    (n : String) (hn : n ∉ s.map FieldDescriptor.name) :
    lookupField (decode s buf) n = none := by
  induction s with
  | nil => rfl
  | cons e es ih =>
    rw [List.map_cons, List.mem_cons] at hn
    push_neg at hn
    simp only [decode, List.map_cons, lookupField, if_neg (Ne.symm hn.1)]
    exact ih hn.2

theorem decodeField_fits (buf : Buffer) (d : FieldDescriptor) :
    fitsWidth d.kind (decodeField buf d) = true := by
  obtain ⟨nm, off, k⟩ := d
  have hb : ∀ p, readByte buf p < 256 := fun p => Nat.mod_lt _ (by omega)
  cases k <;>
    simp only [decodeField, fitsWidth, toSigned8, toSigned16, Bool.and_eq_true,
      decide_eq_true_eq]
  case u8 => have := hb off; omega
  case i8 => have := hb off; split <;> omega
  case u16 => have := hb off; have := hb (off + 1); omega
  case i16 => have := hb off; have := hb (off + 1); split <;> omega
  case rgb8 =>
    exact ⟨⟨hb off, hb (off + 1)⟩, hb (off + 2)⟩

theorem encode_covers_ok (s : List FieldDescriptor) (hpw : s.Pairwise disjointFields)
    (hnd : (s.map FieldDescriptor.name).Nodup) (m : ValueMap)
    (hkeys : ∀ n, (lookupField m n).isSome = true ↔ n ∈ s.map FieldDescriptor.name)
    (hfits : ∀ d ∈ s, ∀ v, lookupField m d.name = some v → fitsWidth d.kind v = true) :
    ∃ buf, encode s m = .ok buf ∧
      ∀ n, lookupField (decode s buf) n = lookupField m n := by
  have hbound0 : ∀ e ∈ s,
      e.offset + e.kind.byteWidth ≤ (List.replicate (recordWidth s) (0 : Nat)).length := by
    intro e he
    rw [List.length_replicate]
    exact recordWidth_le s e he
  have hcov : ∀ d ∈ s, ∃ v, lookupField m d.name = some v ∧
      fitsWidth d.kind v = true := by
    intro d hd
    have hs : (lookupField m d.name).isSome = true :=
      (hkeys d.name).mpr (List.mem_map_of_mem _ hd)
    obtain ⟨v, hv⟩ := Option.isSome_iff_exists.mp hs
    exact ⟨v, hv, hfits d hd v hv⟩
  obtain ⟨buf, hbuf⟩ := encodeFields_ok s m _ hcov
  refine ⟨buf, hbuf, ?_⟩
  intro n
  by_cases hn : n ∈ s.map FieldDescriptor.name
  · obtain ⟨d, hd, rfl⟩ := List.mem_map.mp hn
    obtain ⟨v, hv, hfit⟩ := hcov d hd
    rw [lookupField_decode s hnd buf d hd, hv,
      encodeFields_decodeField s m _ buf hbuf hpw hbound0 d hd v hv]
  · rw [lookupField_decode_none s buf n hn]
    have hns : ¬(lookupField m n).isSome = true := fun hc => hn ((hkeys n).mp hc)
    cases hmn : lookupField m n with
    | none => rfl
    | some v => rw [hmn] at hns; simp at hns

theorem encode_decode_ok (s : List FieldDescriptor) (hWF : schemaWF s)
    (r : Buffer) :
    ∃ buf, encode s (decode s r) = .ok buf ∧ decode s buf = decode s r := by
  obtain ⟨hpw, hnd⟩ := hWF
  have hkeys2 : ∀ n, (lookupField (decode s r) n).isSome = true ↔
      n ∈ s.map FieldDescriptor.name := by
    intro n
    constructor
    · intro h
      by_contra hn
      rw [lookupField_decode_none s r n hn] at h
      simp at h
    · intro hn
      obtain ⟨d, hd, rfl⟩ := List.mem_map.mp hn
      rw [lookupField_decode s hnd r d hd]
      rfl
  have hfits2 : ∀ d ∈ s, ∀ v, lookupField (decode s r) d.name = some v →
      fitsWidth d.kind v = true := by
    intro d hd v hv
    rw [lookupField_decode s hnd r d hd] at hv
    rw [← Option.some.inj hv]
    exact decodeField_fits r d
  obtain ⟨buf, hbuf, hlook⟩ := encode_covers_ok s hpw hnd (decode s r) hkeys2 hfits2
  refine ⟨buf, hbuf, ?_⟩
  unfold decode
  apply List.map_congr_left
  intro d hd
  have h1 := lookupField_decode s hnd buf d hd
  have h2 := lookupField_decode s hnd r d hd
  have h3 := hlook d.name
  rw [h1, h2] at h3
  rw [Option.some.inj h3]

/-! ## The claims -/

/-- C3: for every well-formed schema, `decode` and `encode` are inverses.
First form: for every field-value map `m` whose keys are exactly the declared
field names and whose values are within each field's declared bit width,
`decode(encode(m))` equals `m` as a dictionary (same lookup at every name).
Second form: for every record buffer `r`, `encode(decode(r))` succeeds and
`decode(encode(decode(r))) = decode(r)`. -/
theorem decode_encode_roundtrip (s : List FieldDescriptor) (hWF : schemaWF s) :
    (∀ m : ValueMap,
      (∀ n, (lookupField m n).isSome = true ↔ n ∈ s.map FieldDescriptor.name) →
      (∀ d ∈ s, ∀ v, lookupField m d.name = some v → fitsWidth d.kind v = true) →
      ∃ buf, encode s m = .ok buf ∧
        ∀ n, lookupField (decode s buf) n = lookupField m n) ∧
    (∀ r : Buffer, ∃ buf, encode s (decode s r) = .ok buf ∧
      decode s buf = decode s r) :=
  ⟨fun m hkeys hfits => encode_covers_ok s hWF.1 hWF.2 m hkeys hfits,
   fun r => encode_decode_ok s hWF r⟩

/-- Witness for C3: the round trip evaluated at the concrete representative
schema and the concrete populated record. -/
theorem decode_encode_roundtrip_witness :
    schemaWF presetSchema ∧
    (∃ buf, encode presetSchema (decode presetSchema sampleRecord) = .ok buf ∧
      decode presetSchema buf = decode presetSchema sampleRecord) :=
  ⟨by decide, (decode_encode_roundtrip presetSchema (by decide)).2 sampleRecord⟩

theorem tableEq {t1 t2 : PresetTable} (h : t1.slots = t2.slots) : t1 = t2 := by
  cases t1
  cases t2
  simp only at h
  subst h
  rfl

theorem mem_activeSlotsFrom (s : List FieldDescriptor) (base : Nat)
    (l : List Buffer) (i : Nat) (r : Buffer) :
    (i, r) ∈ activeSlotsFrom s base l ↔
      ∃ j, j < l.length ∧ i = base + j ∧ l.getD j [] = r ∧ isEmpty s r = false := by
  induction l generalizing base with
  | nil => simp [activeSlotsFrom]
  | cons a rest ih =>
    rw [activeSlotsFrom, List.mem_append, ih (base + 1)]
    constructor
    · rintro (hmem | ⟨j, hj, rfl, hr, hne⟩)
      · by_cases he : isEmpty s a
        · rw [if_pos he] at hmem
          simp at hmem
        · rw [if_neg he] at hmem
          simp only [List.mem_singleton, Prod.mk.injEq] at hmem
          obtain ⟨rfl, rfl⟩ := hmem
          exact ⟨0, by simp, by omega, by simp, by simpa using he⟩
      · exact ⟨j + 1, by simp only [List.length_cons]; omega, by omega,
          by simpa using hr, hne⟩
    · rintro ⟨j, hj, rfl, hr, hne⟩
      cases j with
      | zero =>
        left
        simp only [List.getD_cons_zero] at hr
        subst hr
        rw [if_neg (by simp [hne])]
        simp
      | succ j' =>
        right
        rw [List.length_cons] at hj
        exact ⟨j', by omega, by omega, by simpa using hr, hne⟩

theorem activeSlotsFrom_fst_ge (s : List FieldDescriptor) (base : Nat)
    (l : List Buffer) : ∀ p ∈ activeSlotsFrom s base l, base ≤ p.1 := by
  induction l generalizing base with
  | nil => simp [activeSlotsFrom]
  | cons a rest ih =>
    intro p hp
    rw [activeSlotsFrom, List.mem_append] at hp
    rcases hp with hp | hp
    · by_cases he : isEmpty s a
      · rw [if_pos he] at hp
        simp at hp
      · rw [if_neg he] at hp
        simp only [List.mem_singleton] at hp
        subst hp
        exact Nat.le_refl base
    · exact Nat.le_trans (Nat.le_succ base) (ih (base + 1) p hp)

theorem activeSlotsFrom_pairwise (s : List FieldDescriptor) (base : Nat)
    (l : List Buffer) :
    (activeSlotsFrom s base l).Pairwise (fun p q => p.1 < q.1) := by
  induction l generalizing base with
  | nil => simp [activeSlotsFrom]
  | cons a rest ih =>
    rw [activeSlotsFrom]
    by_cases he : isEmpty s a
    · rw [if_pos he]
      simpa using ih (base + 1)
    · rw [if_neg he]
      rw [List.singleton_append, List.pairwise_cons]
      refine ⟨fun q hq => ?_, ih (base + 1)⟩
      exact Nat.lt_of_lt_of_le (Nat.lt_succ_self base)
        (activeSlotsFrom_fst_ge s (base + 1) rest q hq)

/-- C5: `active_slots()` returns exactly the `(index, record)` pairs of the
non-empty slots, in strictly ascending index order; in particular a table
populated exactly at slots 2 and 7 enumerates as indices `[2, 7]`. -/
theorem activeSlots_exactly_nonempty_ascending (s : List FieldDescriptor)
    (t : PresetTable) :
    (∀ i r, (i, r) ∈ activeSlots s t ↔
      i < 15 ∧ t.slots.getD i [] = r ∧ isEmpty s r = false) ∧
    (activeSlots s t).Pairwise (fun p q => p.1 < q.1) ∧
    (activeSlots presetSchema tablePop27).map Prod.fst = [2, 7] := by
  refine ⟨?_, activeSlotsFrom_pairwise s 0 t.slots, by decide⟩
  intro i r
  rw [activeSlots, mem_activeSlotsFrom]
  constructor
  · rintro ⟨j, hj, rfl, hr, hne⟩
    rw [t.hlen] at hj
    refine ⟨by omega, ?_, hne⟩
    rw [Nat.zero_add]
    exact hr
  · rintro ⟨hi, hr, hne⟩
    refine ⟨i, ?_, by omega, hr, hne⟩
    rw [t.hlen]
    omega

/-- C1: copying from a slot whose record is empty fails with
`EmptySourceError` and leaves the destination table — hence every slot's
observable field values — unchanged. -/
theorem copy_empty_source_rejected (s : List FieldDescriptor)
    (src dst : PresetTable) (si di : Int)
    (hsi : 0 ≤ si ∧ si < 15) (hdi : 0 ≤ di ∧ di < 15)
    (hempty : isEmpty s (src.slots.getD si.toNat []) = true) :
    (copyPreset s src si dst di).1 = .error .EmptySourceError ∧
    (copyPreset s src si dst di).2 = dst ∧
    ∀ k, decode s ((copyPreset s src si dst di).2.slots.getD k []) =
      decode s (dst.slots.getD k []) := by
  have h : copyPreset s src si dst di = (.error .EmptySourceError, dst) := by
    rw [copyPreset, if_neg (not_not_intro hsi), if_neg (not_not_intro hdi),
      if_pos hempty]
  rw [h]
  exact ⟨rfl, rfl, fun k => rfl⟩

/-- Witness for C1: slot 3 of the all-empty table copied into slot 5 of a
populated table is rejected and the populated table is untouched. -/
theorem copy_empty_source_rejected_witness :
    isEmpty presetSchema (emptyTable.slots.getD (Int.toNat 3) []) = true ∧
    (copyPreset presetSchema emptyTable 3 tablePop27 5).1 =
      .error .EmptySourceError ∧
    (copyPreset presetSchema emptyTable 3 tablePop27 5).2 = tablePop27 :=
  ⟨by decide,
    (copy_empty_source_rejected presetSchema emptyTable tablePop27 3 5
      (by decide) (by decide) (by decide)).1,
    (copy_empty_source_rejected presetSchema emptyTable tablePop27 3 5
      (by decide) (by decide) (by decide)).2.1⟩

/-- C4: self-copy of a non-empty slot (`copy(T, i, T, i)`) is a no-op
success — the table and all its observable field values are unchanged. -/
theorem copy_self_noop (s : List FieldDescriptor) (t : PresetTable) (i : Int)
    (hi : 0 ≤ i ∧ i < 15)
    (hne : isEmpty s (t.slots.getD i.toNat []) = false) :
    (copyPreset s t i t i).1 = .ok () ∧
    (copyPreset s t i t i).2 = t ∧
    ∀ k, decode s ((copyPreset s t i t i).2.slots.getD k []) =
      decode s (t.slots.getD k []) := by
  have hlt : i.toNat < t.slots.length := by
    rw [t.hlen]
    omega
  have h : copyPreset s t i t i = (.ok (), t) := by
    rw [copyPreset, if_neg (not_not_intro hi), if_neg (not_not_intro hi),
      if_neg (by rw [hne]; exact Bool.false_ne_true), PresetTable.replaceSlot,
      dif_pos hi]
    exact congrArg (Prod.mk (Except.ok ()))
      (tableEq (set_getD_self t.slots i.toNat [] hlt))
  rw [h]
  exact ⟨rfl, rfl, fun k => rfl⟩

/-- Witness for C4: self-copy of populated slot 2 of the sample table. -/
theorem copy_self_noop_witness :
    isEmpty presetSchema (tablePop27.slots.getD (Int.toNat 2) []) = false ∧
    (copyPreset presetSchema tablePop27 2 tablePop27 2).1 = .ok () ∧
    (copyPreset presetSchema tablePop27 2 tablePop27 2).2 = tablePop27 :=
  ⟨by decide,
    (copy_self_noop presetSchema tablePop27 2 (by decide) (by decide)).1,
    (copy_self_noop presetSchema tablePop27 2 (by decide) (by decide)).2.1⟩

/-- C6: for any index outside `[0, 15)` (such as `-1` and `15`), `slot`,
`replace_slot` and `copy` fail with `SlotRangeError` and `import` fails with
`DestRangeError`; none of them clamps the index and no table is mutated. -/
theorem out_of_range_rejected (s : List FieldDescriptor) (t src dst : PresetTable)
    (r : Buffer) (doc : Document) (i : Int) (hi : i < 0 ∨ 15 ≤ i)
    (j : Int) (hj : 0 ≤ j ∧ j < 15)
    (ei : Int) (hei : 0 ≤ ei ∧ ei < (doc.length : Int)) :
    t.slot i = .error .SlotRangeError ∧
    (t.replaceSlot i r).1 = .error .SlotRangeError ∧
    (t.replaceSlot i r).2 = t ∧
    (copyPreset s src i dst j).1 = .error .SlotRangeError ∧
    (copyPreset s src i dst j).2 = dst ∧
    (copyPreset s src j dst i).1 = .error .SlotRangeError ∧
    (copyPreset s src j dst i).2 = dst ∧
    (importPreset s doc ei t i).1 = .error .DestRangeError ∧
    (importPreset s doc ei t i).2 = t := by
  have hni : ¬(0 ≤ i ∧ i < 15) := by omega
  refine ⟨?_, ?_, ?_, ?_, ?_, ?_, ?_, ?_, ?_⟩
  · rw [PresetTable.slot, if_neg hni]
  · rw [PresetTable.replaceSlot, dif_neg hni]
  · rw [PresetTable.replaceSlot, dif_neg hni]
  · rw [copyPreset, if_pos hni]
  · rw [copyPreset, if_pos hni]
  · rw [copyPreset, if_neg (not_not_intro hj), if_pos hni]
  · rw [copyPreset, if_neg (not_not_intro hj), if_pos hni]
  · rw [importPreset, if_neg (not_not_intro hei), if_pos hni]
  · rw [importPreset, if_neg (not_not_intro hei), if_pos hni]

/-- A concrete non-empty interchange document for witnesses. -/
def docEx : Document := exportPresets presetSchema tablePop27

/-- Witness for C6: indices `-1` and `15` are rejected on the concrete
table and document. -/
theorem out_of_range_rejected_witness :
    emptyTable.slot (-1) = .error .SlotRangeError ∧
    emptyTable.slot 15 = .error .SlotRangeError ∧
    (importPreset presetSchema docEx 0 emptyTable (-1)).1 =
      .error .DestRangeError ∧
    (importPreset presetSchema docEx 0 emptyTable 15).1 =
      .error .DestRangeError :=
  ⟨(out_of_range_rejected presetSchema emptyTable emptyTable emptyTable []
      docEx (-1) (by decide) 0 (by decide) 0 (by decide)).1,
   (out_of_range_rejected presetSchema emptyTable emptyTable emptyTable []
      docEx 15 (by decide) 0 (by decide) 0 (by decide)).1,
   (out_of_range_rejected presetSchema emptyTable emptyTable emptyTable []
      docEx (-1) (by decide) 0 (by decide) 0 (by decide)).2.2.2.2.2.2.2.1,
   (out_of_range_rejected presetSchema emptyTable emptyTable emptyTable []
      docEx 15 (by decide) 0 (by decide) 0 (by decide)).2.2.2.2.2.2.2.1⟩

theorem replaceSlot_ok (t : PresetTable) (j : Int) (hj : 0 ≤ j ∧ j < 15)
    (r : Buffer) : (t.replaceSlot j r).1 = .ok () := by
  rw [PresetTable.replaceSlot, dif_pos hj]

theorem replaceSlot_slots (t : PresetTable) (j : Int) (hj : 0 ≤ j ∧ j < 15)
    (r : Buffer) : (t.replaceSlot j r).2.slots = t.slots.set j.toNat r := by
  rw [PresetTable.replaceSlot, dif_pos hj]

theorem decode_keys_declared (s : List FieldDescriptor) (r : Buffer) :
    ((decode s r).all fun q => s.any fun d => d.name = q.1) = true := by
  rw [List.all_eq_true]
  intro q hq
  rw [decode, List.mem_map] at hq
  obtain ⟨d, hd, rfl⟩ := hq
  rw [List.any_eq_true]
  exact ⟨d, hd, by simp⟩

/-- C2: export/import inverse.  For a table with an active slot `i` exported
as document entry `k`, importing entry `k` of the exported document into any
table at any in-range destination `j` succeeds and yields a destination slot
`j` whose field values equal those of the original slot `i`. -/
theorem export_import_inverse (s : List FieldDescriptor) (hWF : schemaWF s)
    (t t2 : PresetTable) (k : Nat) (hk : k < (activeSlots s t).length)
    (i : Nat) (hik : ((activeSlots s t).get ⟨k, hk⟩).1 = i)
    (j : Int) (hj : 0 ≤ j ∧ j < 15) :
    (importPreset s (exportPresets s t) (k : Int) t2 j).1 = .ok () ∧
    decode s
      ((importPreset s (exportPresets s t) (k : Int) t2 j).2.slots.getD j.toNat []) =
      decode s (t.slots.getD i []) := by
  have hpmem : (activeSlots s t).get ⟨k, hk⟩ ∈ activeSlots s t :=
    List.get_mem _ _ _
  obtain ⟨jj, hjj, hpj, hslot, hnemp⟩ :=
    (mem_activeSlotsFrom s 0 t.slots ((activeSlots s t).get ⟨k, hk⟩).1
      ((activeSlots s t).get ⟨k, hk⟩).2).mp hpmem
  have hdata : ((exportPresets s t).getD (Int.toNat (k : Int)) default).data =
      decode s ((activeSlots s t).get ⟨k, hk⟩).2 := by
    rw [Int.toNat_natCast, exportPresets,
      List.getD_eq_getElem _ _ (by rw [List.length_map]; exact hk),
      List.getElem_map]
    exact congrArg (fun x => decode s x.2)
      (List.get_eq_getElem (activeSlots s t) ⟨k, hk⟩).symm
  have hc1 : ¬¬(0 ≤ (k : Int) ∧ (k : Int) < ((exportPresets s t).length : Int)) := by
    apply not_not_intro
    refine ⟨Int.natCast_nonneg k, ?_⟩
    rw [exportPresets, List.length_map]
    exact_mod_cast hk
  obtain ⟨buf, hbuf, hdec⟩ :=
    encode_decode_ok s hWF ((activeSlots s t).get ⟨k, hk⟩).2
  have hred : importPreset s (exportPresets s t) (k : Int) t2 j =
      t2.replaceSlot j buf := by
    rw [importPreset, if_neg hc1, if_neg (not_not_intro hj), hdata,
      if_neg (not_not_intro (decode_keys_declared s _)), hbuf]
  have hji : jj = i := by omega
  rw [hji] at hslot
  refine ⟨by rw [hred, replaceSlot_ok t2 j hj], ?_⟩
  rw [hred, replaceSlot_slots t2 j hj,
    getD_set_self _ _ _ _ (by rw [t2.hlen]; omega), hdec, ← hslot]

/-- Witness for C2: entry 0 of the export of the sample table (its active
slot 2) imported into slot 4 of the all-empty table reproduces slot 2's
field values. -/
theorem export_import_inverse_witness :
    (importPreset presetSchema (exportPresets presetSchema tablePop27)
      ((0 : Nat) : Int) emptyTable 4).1 = .ok () ∧
    decode presetSchema
      ((importPreset presetSchema (exportPresets presetSchema tablePop27)
        ((0 : Nat) : Int) emptyTable 4).2.slots.getD (Int.toNat 4) []) =
      decode presetSchema (tablePop27.slots.getD 2 []) :=
  export_import_inverse presetSchema (by decide) tablePop27 emptyTable 0
    (by decide) 2 (by decide) 4 (by decide)

/-- C9: the result of `import` — which destination slot is written and with
what field values — never depends on any entry's `original_slot`: two
documents of the same length that agree on every entry's `data` import
identically at every entry index, destination table and destination index. -/
theorem import_ignores_original_slot (s : List FieldDescriptor)
    (d1 d2 : Document) (hlen : d1.length = d2.length)
    (hdata : ∀ k, k < d1.length →
      (d1.getD k default).data = (d2.getD k default).data)
    (ei : Int) (t : PresetTable) (di : Int) :
    importPreset s d1 ei t di = importPreset s d2 ei t di := by
  rw [importPreset, importPreset, hlen]
  by_cases h1 : ¬(0 ≤ ei ∧ ei < (d2.length : Int))
  · rw [if_pos h1, if_pos h1]
  · rw [if_neg h1, if_neg h1]
    by_cases h2 : ¬(0 ≤ di ∧ di < 15)
    · rw [if_pos h2, if_pos h2]
    · rw [if_neg h2, if_neg h2]
      rw [not_not] at h1
      have hd : (d1.getD ei.toNat default).data = (d2.getD ei.toNat default).data := by
        apply hdata
        rw [hlen]
        omega
      rw [hd]

/-- Witness for C9: the concrete export document and the same document with
every `original_slot` shifted import identically. -/
theorem import_ignores_original_slot_witness :
    importPreset presetSchema docEx 0 emptyTable 4 =
      importPreset presetSchema
        (docEx.map fun e => ⟨e.originalSlot + 40, e.data⟩) 0 emptyTable 4 :=
  import_ignores_original_slot presetSchema docEx
    (docEx.map fun e => ⟨e.originalSlot + 40, e.data⟩)
    (by decide) (by decide) 0 emptyTable 4

/-- C8: `body_type()` is total, two-valued, returns `B` exactly when the
designated discriminator field decodes to 1, and treats every other value
(and a missing or non-integer discriminator) as `A`. -/
theorem body_type_total_two_valued (s : List FieldDescriptor) (r : Buffer) :
    (getBodyType s r = .A ∨ getBodyType s r = .B) ∧
    (getBodyType s r = .B ↔ discriminatorValue s r = some (.int 1)) := by
  constructor
  · cases h : getBodyType s r
    · exact Or.inl rfl
    · exact Or.inr rfl
  · rw [getBodyType]
    cases hd : discriminatorValue s r with
    | none => simp
    | some v =>
      cases v with
      | int w =>
        by_cases hw : w = 1
        · subst hw
          simp
        · simp [hw]
      | rgb a b c => simp

/-- C7: in the calling layer's copy and import flows (`do_copy` and
`do_import` of the GUI and `copy_preset` of the CLI), a backup-file creation
or a persist happens only after the mutation reports success, and a failed
mutation triggers no disk write at all. -/
theorem backup_persist_only_after_success (ok : Bool) (p q : String) :
    writesAfterSuccess (doCopyTrace ok p) ∧
    writesAfterSuccess (doImportTrace ok p) ∧
    writesAfterSuccess (copyCliTrace ok q p) ∧
    (ok = false →
      (∀ st ∈ doCopyTrace ok p, isWriteStep st = false) ∧
      (∀ st ∈ doImportTrace ok p, isWriteStep st = false) ∧
      (∀ st ∈ copyCliTrace ok q p, isWriteStep st = false)) := by
  have hnw : ∀ tr : List Step, (∀ st ∈ tr, isWriteStep st = false) →
      writesAfterSuccess tr := by
    intro tr h k hk hw
    rw [h _ (List.get_mem tr k hk)] at hw
    exact absurd hw (by simp)
  cases ok with
  | false =>
    have h1 : ∀ st ∈ doCopyTrace false p, isWriteStep st = false := by
      intro st hst
      have e : doCopyTrace false p = [.load p, .mutate false, .dialog] := rfl
      rw [e] at hst
      simp only [List.mem_cons, List.not_mem_nil, or_false] at hst
      rcases hst with rfl | rfl | rfl <;> rfl
    have h2 : ∀ st ∈ doImportTrace false p, isWriteStep st = false := by
      intro st hst
      have e : doImportTrace false p = [.mutate false, .dialog] := rfl
      rw [e] at hst
      simp only [List.mem_cons, List.not_mem_nil, or_false] at hst
      rcases hst with rfl | rfl <;> rfl
    have h3 : ∀ st ∈ copyCliTrace false q p, isWriteStep st = false := by
      intro st hst
      have e : copyCliTrace false q p = [.load q, .load p, .mutate false] := rfl
      rw [e] at hst
      simp only [List.mem_cons, List.not_mem_nil, or_false] at hst
      rcases hst with rfl | rfl | rfl <;> rfl
    exact ⟨hnw _ h1, hnw _ h2, hnw _ h3, fun _ => ⟨h1, h2, h3⟩⟩
  | true =>
    have e1 : doCopyTrace true p =
        [.load p, .mutate true, .backupFile p (p ++ ".backup"),
          .persistSave p, .dialog] := rfl
    have e2 : doImportTrace true p =
        [.mutate true, .backupFile p (p ++ ".backup"), .persistSave p,
          .load p, .dialog] := rfl
    have e3 : copyCliTrace true q p =
        [.load q, .load p, .mutate true, .backupFile p (p ++ ".backup"),
          .persistSave p] := rfl
    refine ⟨?_, ?_, ?_, fun hc => absurd hc (by simp)⟩
    · rw [e1]
      intro k hk hw
      simp only [List.length_cons, List.length_nil] at hk
      interval_cases k
      · exact absurd hw (by simp [List.get, isWriteStep])
      · exact absurd hw (by simp [List.get, isWriteStep])
      · exact ⟨1, by omega, by simp, rfl⟩
      · exact ⟨1, by omega, by simp, rfl⟩
      · exact absurd hw (by simp [List.get, isWriteStep])
    · rw [e2]
      intro k hk hw
      simp only [List.length_cons, List.length_nil] at hk
      interval_cases k
      · exact absurd hw (by simp [List.get, isWriteStep])
      · exact ⟨0, by omega, by simp, rfl⟩
      · exact ⟨0, by omega, by simp, rfl⟩
      · exact absurd hw (by simp [List.get, isWriteStep])
      · exact absurd hw (by simp [List.get, isWriteStep])
    · rw [e3]
      intro k hk hw
      simp only [List.length_cons, List.length_nil] at hk
      interval_cases k
      · exact absurd hw (by simp [List.get, isWriteStep])
      · exact absurd hw (by simp [List.get, isWriteStep])
      · exact absurd hw (by simp [List.get, isWriteStep])
      · exact ⟨2, by omega, by simp, rfl⟩
      · exact ⟨2, by omega, by simp, rfl⟩

/-- Witness for C7: the successful and the failed run of the GUI copy flow at
a concrete path. -/
theorem backup_persist_only_after_success_witness :
    writesAfterSuccess (doCopyTrace true "ER0000.sl2") ∧
    writesAfterSuccess (doCopyTrace false "ER0000.sl2") :=
  ⟨(backup_persist_only_after_success true "ER0000.sl2" "ER0001.sl2").1,
   (backup_persist_only_after_success false "ER0000.sl2" "ER0001.sl2").1⟩

/-- C10 as stated is refuted: on a successful copy the flow also writes the
backup file `dest + ".backup"`, so not every written path equals the
destination save path. -/
theorem copy_flow_writes_counterexample :
    ¬(∀ pth ∈ writtenPaths (doCopyTrace true "ER0000.sl2"), pth = "ER0000.sl2") := by
  decide

/-- C10 amended: the copy flows write only the destination save path and its
`.backup` sibling; the source save is loaded read-only and never persisted, so
whenever the source path differs from those two paths its file is never
written. -/
theorem copy_flow_source_never_written (ok : Bool) (src dest : String) :
    (∀ pth ∈ writtenPaths (copyCliTrace ok src dest),
      pth = dest ∨ pth = dest ++ ".backup") ∧
    (∀ pth ∈ writtenPaths (doCopyTrace ok dest),
      pth = dest ∨ pth = dest ++ ".backup") ∧
    (src ≠ dest → src ≠ dest ++ ".backup" →
      src ∉ writtenPaths (copyCliTrace ok src dest)) ∧
    (Step.persistSave src ∈ copyCliTrace ok src dest → src = dest) := by
  cases ok with
  | false =>
    refine ⟨?_, ?_, ?_, ?_⟩ <;>
      simp [copyCliTrace, doCopyTrace, writtenPaths, stepWrites]
  | true =>
    have e1 : writtenPaths (copyCliTrace true src dest) =
        [dest ++ ".backup", dest] := rfl
    have e2 : writtenPaths (doCopyTrace true dest) =
        [dest ++ ".backup", dest] := rfl
    refine ⟨?_, ?_, ?_, ?_⟩
    · rw [e1]
      intro pth hp
      rcases List.mem_cons.mp hp with rfl | hp
      · exact Or.inr rfl
      · rcases List.mem_singleton.mp hp with rfl
        exact Or.inl rfl
    · rw [e2]
      intro pth hp
      rcases List.mem_cons.mp hp with rfl | hp
      · exact Or.inr rfl
      · rcases List.mem_singleton.mp hp with rfl
        exact Or.inl rfl
    · intro h1 h2 hmem
      rw [e1] at hmem
      rcases List.mem_cons.mp hmem with heq | hmem
      · exact h2 heq
      · exact h1 (List.mem_singleton.mp hmem)
    · intro hmem
      have e : copyCliTrace true src dest =
          [.load src, .load dest, .mutate true,
            .backupFile dest (dest ++ ".backup"), .persistSave dest] := rfl
      rw [e] at hmem
      simp only [List.mem_cons, List.not_mem_nil, or_false] at hmem
      rcases hmem with h | h | h | h | h <;>
        first
          | exact (Step.persistSave.injEq _ _).mp h
          | exact absurd h (by simp)

/-- Witness for C10 (amended): on a successful CLI copy with distinct paths
the source save file is never written. -/
theorem copy_flow_source_never_written_witness :
    "ER0001.sl2" ∉ writtenPaths (copyCliTrace true "ER0001.sl2" "ER0000.sl2") :=
  (copy_flow_source_never_written true "ER0001.sl2" "ER0000.sl2").2.2.1
    (by decide) (by decide)

end CharacterPresets

